import Mathlib

/-!
Verification of the Texas Hold'em winning-probability engine
(`poker_logic.py`): card/deck model, input validation, the per-trial
dealing and scoring of `run_simulation`, and a hand evaluator modelled
from the specification (the original delegates hand ranking to the
external `deuces` library, whose contract the spec states precisely).

Cards are embedded as natural numbers below 52; the simulation
coordinator is parametrised over the scoring function and over the
per-trial shuffled deck (one permutation of the 52 cards per trial),
which makes every run of the embedded coordinator a deterministic
function of those choices.
-/

set_option maxHeartbeats 1000000

namespace PokerSim

/-- A playing card: one of the 52 values, encoded as a natural number
below 52.  Rank (2..14) and suit (0..3) are recovered arithmetically. -/
abbrev Card := Nat

/-- Rank of a card, from 2 (deuce) to 14 (ace). -/
def rankOf (c : Card) : Nat := c / 4 + 2

/-- Suit of a card, 0..3. -/
def suitOf (c : Card) : Nat := c % 4

/-- The full 52-card deck in a canonical order (`get_full_deck_deuces`). -/
def fullDeck : List Card := List.range 52

/-- The error outcomes of the engine.  In the Python source these are
`ValueError` / `Exception` values distinguished by message; the spec
names them as an error taxonomy. -/
inductive PokerError where
  | invalidHoleCount : PokerError
  | invalidCommunityCount : PokerError
  | duplicateCard : Card → PokerError
  | tooManyCommunity : PokerError
  | deckExhausted : PokerError
  | emptyScores : PokerError
  | divisionByZero : PokerError
  | invalidHandSize : PokerError
  | duplicateCardInHand : PokerError
  deriving DecidableEq

/-- Add a list of cards to the running known-card set, failing with a
duplicate-card error on the first card already known
(`run_simulation`, the per-card body of lines 76-83 and 87-93).
Returns the cards added (the hand) and the extended known set. -/
def addCards (known : List Card) : List Card → Except PokerError (List Card × List Card)
  | [] => .ok ([], known)
  | c :: cs =>
      if c ∈ known then .error (.duplicateCard c)
      else
        match addCards (known ++ [c]) cs with
        | .ok (h, k) => .ok (c :: h, k)
        | .error e => .error e

/-- The hole-card entries actually used: entry `i` of the input for each
`i < n`, an empty hand when the input list is shorter
(`run_simulation` line 75: entries at index ≥ `len(player_hands_str_initial)`
and entries beyond `num_total_players` are never touched). -/
def handsForPlayers (handsIn : List (List Card)) (n : Nat) : List (List Card) :=
  (List.range n).map (fun i => handsIn.getD i [])

/-- Process the used player entries in order, threading the known-card
set (`run_simulation` lines 71-84). -/
def collectHands (known : List Card) :
    List (List Card) → Except PokerError (List (List Card) × List Card)
  | [] => .ok ([], known)
  | h :: hs =>
      match addCards known h with
      | .error e => .error e
      | .ok (hd, k) =>
          match collectHands k hs with
          | .error e => .error e
          | .ok (tl, k2) => .ok (hd :: tl, k2)

/-- The pre-trial validation phase of `run_simulation` (lines 68-96):
collect the first `n` player hands, then the community cards, checking
for duplicates along the way, then reject more than 5 community cards.
Returns (initial player hands, initial community cards, known cards). -/
def validateInputs (handsIn : List (List Card)) (comm : List Card) (n : Nat) :
    Except PokerError (List (List Card) × List Card × List Card) :=
  match collectHands [] (handsForPlayers handsIn n) with
  | .error e => .error e
  | .ok (hands0, k1) =>
      match addCards k1 comm with
      | .error e => .error e
      | .ok (comm0, known) =>
          if comm0.length > 5 then .error .tooManyCommunity
          else .ok (hands0, comm0, known)

/-- Draw `n` cards from the front of the deck without replacement,
failing when the deck runs out (`deuces.Deck.draw` wrapped in the
try/except of `run_simulation` lines 116-129). -/
def drawN : Nat → List Card → Except PokerError (List Card × List Card)
  | 0, deck => .ok ([], deck)
  | _ + 1, [] => .error .deckExhausted
  | n + 1, c :: deck =>
      match drawN n deck with
      | .ok (d, r) => .ok (c :: d, r)
      | .error e => .error e

/-- Deal every player up to 2 hole cards from the shared deck, in
ascending player order (`run_simulation` lines 114-121: draw while the
hand holds fewer than 2 cards). -/
def dealHands : List (List Card) → List Card → Except PokerError (List (List Card) × List Card)
  | [], deck => .ok ([], deck)
  | h :: hs, deck =>
      match drawN (2 - h.length) deck with
      | .error e => .error e
      | .ok (d, deck2) =>
          match dealHands hs deck2 with
          | .error e => .error e
          | .ok (rest, deck3) => .ok ((h ++ d) :: rest, deck3)

/-- The restricted deck of one trial: the fresh shuffled deck `perm`
with every known card removed (`run_simulation` lines 99-108). -/
def trialDeck (perm : List Card) (known : List Card) : List Card :=
  perm.filter (fun c => decide (c ∉ known))

/-- The dealing phase of one trial (`run_simulation` lines 99-129):
build the restricted deck, complete every player's hole cards to 2,
then complete the board to 5 community cards.  Returns the final
hands, the final board and the unused remainder of the deck. -/
def dealTrial (hands0 : List (List Card)) (comm0 : List Card)
    (known : List Card) (perm : List Card) :
    Except PokerError (List (List Card) × List Card × List Card) :=
  match dealHands hands0 (trialDeck perm known) with
  | .error e => .error e
  | .ok (hands, deck1) =>
      match drawN (5 - comm0.length) deck1 with
      | .error e => .error e
      | .ok (d, deck2) => .ok (hands, comm0 ++ d, deck2)

/-- Minimum of a list of naturals, `none` on the empty list
(Python's `min`, which raises on an empty sequence). -/
def listMin : List Nat → Option Nat
  | [] => none
  | x :: xs =>
      match listMin xs with
      | none => some x
      | some m => some (min x m)

/-- The winner set of one trial: the indices whose score equals the
minimum score (`run_simulation` line 137). -/
def trialWinners (scores : List Nat) (m : Nat) : List Nat :=
  (scores.enum.filter (fun p => decide (p.2 = m))).map Prod.fst

/-- Update the per-player (wins, ties) counters from the winner set
(`run_simulation` lines 139-143): a sole winner gets `wins + 1`,
two or more tied winners each get `ties + 1`. -/
def applyOutcome (results : List (Nat × Nat)) (winners : List Nat) : List (Nat × Nat) :=
  if winners.length = 1 then
    results.enum.map (fun p => if p.1 ∈ winners then (p.2.1 + 1, p.2.2) else p.2)
  else
    results.enum.map (fun p => if p.1 ∈ winners then (p.2.1, p.2.2 + 1) else p.2)

/-- One full trial (`run_simulation` lines 98-143): deal, score every
player's 2 hole cards against the 5-card board, find the winners and
update the counters. -/
def simTrial (score : List Card → List Card → Nat)
    (hands0 : List (List Card)) (comm0 : List Card) (known : List Card)
    (results : List (Nat × Nat)) (perm : List Card) :
    Except PokerError (List (Nat × Nat)) :=
  match dealTrial hands0 comm0 known perm with
  | .error e => .error e
  | .ok (hands, board, _) =>
      let scores := hands.map (fun h => score board h)
      match listMin scores with
      | none => .error .emptyScores
      | some m => .ok (applyOutcome results (trialWinners scores m))

/-- Run the trials in order, threading the counters. -/
def runTrials (score : List Card → List Card → Nat)
    (hands0 : List (List Card)) (comm0 : List Card) (known : List Card) :
    List (List Card) → List (Nat × Nat) → Except PokerError (List (Nat × Nat))
  | [], results => .ok results
  | perm :: ps, results =>
      match simTrial score hands0 comm0 known results perm with
      | .error e => .error e
      | .ok r2 => runTrials score hands0 comm0 known ps r2

/-- Convert raw counters to percentages (`run_simulation` lines 145-152):
`wins / num_simulations * 100` and `ties / num_simulations * 100` per
player.  A zero trial count with at least one player is the source's
uncaught `ZeroDivisionError`. -/
def aggregate (results : List (Nat × Nat)) (n : Nat) : Except PokerError (List (ℚ × ℚ)) :=
  if n = 0 ∧ results ≠ [] then .error .divisionByZero
  else .ok (results.map (fun r => (((r.1 : ℚ) / n) * 100, ((r.2 : ℚ) / n) * 100)))

/-- The whole of `run_simulation` (lines 61-152), parametrised over the
scoring function and over the fresh shuffled deck of each trial
(`decks t` is the order `deuces.Deck()` produced for trial `t`). -/
def runSimulation (score : List Card → List Card → Nat) (decks : Nat → List Card)
    (handsIn : List (List Card)) (comm : List Card)
    (numPlayers numSims : Nat) : Except PokerError (List (ℚ × ℚ)) :=
  match validateInputs handsIn comm numPlayers with
  | .error e => .error e
  | .ok (hands0, comm0, known) =>
      match runTrials score hands0 comm0 known
          ((List.range numSims).map decks) (List.replicate numPlayers (0, 0)) with
      | .error e => .error e
      | .ok results => aggregate results numSims

/-- Modelled from the spec: the hand-category labels of §3/§4.3
(the original obtains them from the external `deuces` evaluator's
`get_rank_class` / `class_to_string`, which is not part of the
repository's sources). -/
inductive HandCategory where
  | straightFlush : HandCategory
  | fourOfAKind : HandCategory
  | fullHouse : HandCategory
  | flush : HandCategory
  | straight : HandCategory
  | threeOfAKind : HandCategory
  | twoPair : HandCategory
  | onePair : HandCategory
  | highCard : HandCategory
  deriving DecidableEq

/-- Category index, 0 = strongest (Straight Flush) .. 8 = weakest
(High Card); lower is stronger throughout, per the spec's convention. -/
def catVal : HandCategory → Nat
  | .straightFlush => 0
  | .fourOfAKind => 1
  | .fullHouse => 2
  | .flush => 3
  | .straight => 4
  | .threeOfAKind => 5
  | .twoPair => 6
  | .onePair => 7
  | .highCard => 8

/-- Insert into a descending-sorted list, keeping it descending. -/
def insertDesc (x : Nat) : List Nat → List Nat
  | [] => [x]
  | y :: ys => if y ≤ x then x :: y :: ys else y :: insertDesc x ys

/-- Sort a list of naturals in descending order. -/
def sortDesc : List Nat → List Nat
  | [] => []
  | x :: xs => insertDesc x (sortDesc xs)

/-- The ranks of a hand. -/
def ranksOf (cs : List Card) : List Nat := cs.map rankOf

/-- Modelled from the spec: flush test — all five cards of one suit
(suit is "used only for flush detection"). -/
def isFlush (cs : List Card) : Bool :=
  cs.all (fun c => suitOf c = suitOf (cs.headD 0))

/-- The distinct ranks of a hand, descending. -/
def uniqueRanksDesc (cs : List Card) : List Nat := (sortDesc (ranksOf cs)).dedup

/-- Modelled from the spec: straight detection, wheel A-2-3-4-5
included; returns the straight's high rank (5 for the wheel, per the
tiebreak rule "wheel's highest is 5, not Ace"). -/
def straightHigh (cs : List Card) : Option Nat :=
  let u := uniqueRanksDesc cs
  if u = [14, 5, 4, 3, 2] then some 5
  else if u.length = 5 && u.headD 0 - u.getLastD 0 = 4 then some (u.headD 0)
  else none

/-- Does some rank occur exactly `k` times in the hand? -/
def hasCount (rs : List Nat) (k : Nat) : Bool :=
  rs.any (fun r => rs.count r = k)

/-- Number of distinct ranks occurring exactly twice. -/
def numPairs (rs : List Nat) : Nat :=
  (rs.dedup.filter (fun r => decide (rs.count r = 2))).length

/-- Modelled from the spec: the classification rules of §4.3 in
priority order (Straight Flush, Four of a Kind, Full House, Flush,
Straight, Three of a Kind, Two Pair, One Pair, High Card). -/
def category5 (cs : List Card) : HandCategory :=
  let rs := ranksOf cs
  if isFlush cs && (straightHigh cs).isSome then .straightFlush
  else if hasCount rs 4 then .fourOfAKind
  else if hasCount rs 3 && hasCount rs 2 then .fullHouse
  else if isFlush cs then .flush
  else if (straightHigh cs).isSome then .straight
  else if hasCount rs 3 then .threeOfAKind
  else if numPairs rs = 2 then .twoPair
  else if hasCount rs 2 then .onePair
  else .highCard

/-- Should rank `a` come before rank `b` in kicker order?  Higher
occurrence count first, then higher rank first — this single order
realises every per-category kicker rule of §4.3 (quad/triplet/pair
ranks before kickers, kickers descending). -/
def kickerBefore (rs : List Nat) (a b : Nat) : Bool :=
  rs.count b < rs.count a || (rs.count a = rs.count b && b ≤ a)

/-- Insertion into the kicker order. -/
def insertKicker (rs : List Nat) (x : Nat) : List Nat → List Nat
  | [] => [x]
  | y :: ys => if kickerBefore rs x y then x :: y :: ys else y :: insertKicker rs x ys

/-- The hand's ranks sorted into kicker order (count desc, rank desc). -/
def byCountRank (cs : List Card) : List Nat :=
  (ranksOf cs).foldr (insertKicker (ranksOf cs)) []

/-- Base-15 encoding of a rank sequence, most significant first, with
digit `14 - r` so that a higher rank yields a smaller value
(lower score = stronger hand). -/
def encodeRanks (l : List Nat) : Nat :=
  l.foldl (fun acc r => acc * 15 + (14 - r)) 0

/-- Modelled from the spec: the within-category tiebreak value.
Straights (plain and flush) compare by the straight's high rank only;
every other category compares by the kicker-ordered rank sequence. -/
def tb5 (cs : List Card) : Nat :=
  match category5 cs with
  | .straight => encodeRanks [(straightHigh cs).getD 0]
  | .straightFlush => encodeRanks [(straightHigh cs).getD 0]
  | _ => encodeRanks (byCountRank cs)

/-- Modelled from the spec: the total-ordered 5-card hand score of
§4.3, lower = stronger; the category occupies disjoint high-order
ranges (as in the original's 1..7462 score space) and the tiebreak
fully resolves ties within a category. -/
def evaluate5 (cs : List Card) : Nat :=
  catVal (category5 cs) * 15 ^ 5 + tb5 cs

/-- Modelled from the spec: recover the hand category from a score
(the original's `Evaluator.get_rank_class`). -/
def rankClass (s : Nat) : HandCategory :=
  match s / 15 ^ 5 with
  | 0 => .straightFlush
  | 1 => .fourOfAKind
  | 2 => .fullHouse
  | 3 => .flush
  | 4 => .straight
  | 5 => .threeOfAKind
  | 6 => .twoPair
  | 7 => .onePair
  | _ => .highCard

/-- Modelled from the spec: the 5-to-7 card evaluator of §4.3
(`Evaluator.evaluate` of the external library): reject a hand size
outside {5,6,7} and duplicated cards, then evaluate every 5-card
subset, keeping the numerically lowest score. -/
def evaluateScore (cards : List Card) : Except PokerError Nat :=
  if cards.length = 5 || cards.length = 6 || cards.length = 7 then
    if cards.Nodup then
      match listMin ((List.sublistsLen 5 cards).map evaluate5) with
      | some m => .ok m
      | none => .error .invalidHandSize
    else .error .duplicateCardInHand
  else .error .invalidHandSize

/-- The `get_hand_strength` entry point (`poker_logic.py` lines 17-55):
check the hole-card count is exactly 2 and the community-card count at
most 5, then score `evaluate(community, hole)` and derive the category
from the score. -/
def getHandStrength (hole : List Card) (comm : List Card) :
    Except PokerError (Nat × HandCategory) :=
  if hole.length ≠ 2 then .error .invalidHoleCount
  else if comm.length > 5 then .error .invalidCommunityCount
  else
    match evaluateScore (comm ++ hole) with
    | .error e => .error e
    | .ok s => .ok (s, rankClass s)

/-- Did the call succeed? -/
def isOk {α : Type} : Except PokerError α → Bool
  | .ok _ => true
  | .error _ => false

/-- The known cards a call to `run_simulation` actually inspects: those
of the first `n` player entries followed by the community cards. -/
def knownCards (handsIn : List (List Card)) (comm : List Card) (n : Nat) : List Card :=
  (handsForPlayers handsIn n).flatten ++ comm

section ValidationLemmas

theorem addCards_ok {known cs : List Card} {out : List Card × List Card}
    (h : addCards known cs = .ok out) : out = (cs, known ++ cs) := by
  induction cs generalizing known out with
  | nil => simpa [addCards] using h.symm
  | cons c cs ih =>
      by_cases hc : c ∈ known
      · simp [addCards, hc] at h
      · simp only [addCards, if_neg hc] at h
        cases hrec : addCards (known ++ [c]) cs with
        | ok p =>
            rw [hrec] at h
            cases out with
            | mk h1 k1 =>
                have := ih hrec
                simp only [this] at h
                cases h.symm
                simp
        | error e => rw [hrec] at h; cases h

theorem addCards_ok_nodup {known cs : List Card} {out : List Card × List Card}
    (h : addCards known cs = .ok out) (hk : known.Nodup) : (known ++ cs).Nodup := by
  induction cs generalizing known out with
  | nil => simpa using hk
  | cons c cs ih =>
      by_cases hc : c ∈ known
      · simp [addCards, hc] at h
      · simp only [addCards, if_neg hc] at h
        cases hrec : addCards (known ++ [c]) cs with
        | ok p =>
            have h2 : ((known ++ [c]) ++ cs).Nodup := by
              refine ih hrec ?_
              simpa [List.nodup_append, hc] using hk
            simpa using h2
        | error e => rw [hrec] at h; cases h

theorem addCards_of_nodup {known cs : List Card} (h : (known ++ cs).Nodup) :
    addCards known cs = .ok (cs, known ++ cs) := by
  induction cs generalizing known with
  | nil => simp [addCards]
  | cons c cs ih =>
      have hc : c ∉ known := by
        intro hmem
        have := List.disjoint_of_nodup_append h
        exact this hmem (by simp)
      have h2 : ((known ++ [c]) ++ cs).Nodup := by simpa using h
      simp [addCards, hc, ih h2]

theorem addCards_error {known cs : List Card} {e : PokerError}
    (h : addCards known cs = .error e) :
    ∃ c, e = .duplicateCard c ∧ 2 ≤ (known ++ cs).count c := by
  induction cs generalizing known e with
  | nil => simp [addCards] at h
  | cons c cs ih =>
      by_cases hc : c ∈ known
      · refine ⟨c, ?_, ?_⟩
        · simpa [addCards, hc] using h.symm
        · have h1 : 1 ≤ known.count c := List.count_pos_iff.mpr hc
          have h2 : 1 ≤ (c :: cs).count c := by simp
          calc 2 ≤ known.count c + (c :: cs).count c := by omega
            _ = (known ++ (c :: cs)).count c := (List.count_append ..).symm
      · simp only [addCards, if_neg hc] at h
        cases hrec : addCards (known ++ [c]) cs with
        | ok p => rw [hrec] at h; cases h
        | error e2 =>
            rw [hrec] at h
            cases h
            obtain ⟨d, hd, hcount⟩ := ih hrec
            exact ⟨d, hd, by simpa using hcount⟩

theorem collectHands_ok {known : List Card} {hs : List (List Card)}
    {out : List (List Card) × List Card}
    (h : collectHands known hs = .ok out) : out = (hs, known ++ hs.flatten) := by
  induction hs generalizing known out with
  | nil => simpa [collectHands] using h.symm
  | cons hd tl ih =>
      cases h1 : addCards known hd with
      | error e => simp [collectHands, h1] at h
      | ok p =>
          obtain ⟨hh, kk⟩ := p
          have e1 := addCards_ok h1
          cases e1
          simp only [collectHands, h1] at h
          cases h2 : collectHands (known ++ hd) tl with
          | error e => rw [h2] at h; cases h
          | ok q =>
              rw [h2] at h
              obtain ⟨qh, qk⟩ := q
              have e2 := ih h2
              cases e2
              cases h
              simp

theorem collectHands_ok_nodup {known : List Card} {hs : List (List Card)}
    {out : List (List Card) × List Card}
    (h : collectHands known hs = .ok out) (hk : known.Nodup) :
    (known ++ hs.flatten).Nodup := by
  induction hs generalizing known out with
  | nil => simpa using hk
  | cons hd tl ih =>
      cases h1 : addCards known hd with
      | error e => simp [collectHands, h1] at h
      | ok p =>
          obtain ⟨hh, kk⟩ := p
          have e1 := addCards_ok h1
          cases e1
          simp only [collectHands, h1] at h
          cases h2 : collectHands (known ++ hd) tl with
          | error e => rw [h2] at h; cases h
          | ok q =>
              have hnd : (known ++ hd).Nodup := addCards_ok_nodup h1 hk
              have := ih h2 hnd
              simpa [List.append_assoc] using this

theorem collectHands_of_nodup {known : List Card} {hs : List (List Card)}
    (h : (known ++ hs.flatten).Nodup) :
    collectHands known hs = .ok (hs, known ++ hs.flatten) := by
  induction hs generalizing known with
  | nil => simp [collectHands]
  | cons hd tl ih =>
      have hall : ((known ++ hd) ++ tl.flatten).Nodup := by
        simpa [List.append_assoc] using h
      have h1 : (known ++ hd).Nodup :=
        (List.sublist_append_left (known ++ hd) tl.flatten).nodup hall
      have e1 := @addCards_of_nodup known hd (by simpa using h1)
      have e2 := @ih (known ++ hd) hall
      simp [collectHands, e1, e2, List.append_assoc]

theorem collectHands_error {known : List Card} {hs : List (List Card)} {e : PokerError}
    (h : collectHands known hs = .error e) :
    ∃ c, e = .duplicateCard c ∧ 2 ≤ (known ++ hs.flatten).count c := by
  induction hs generalizing known e with
  | nil => simp [collectHands] at h
  | cons hd tl ih =>
      cases h1 : addCards known hd with
      | error e2 =>
          simp only [collectHands, h1] at h
          cases h
          obtain ⟨c, hc, hcount⟩ := addCards_error h1
          refine ⟨c, hc, ?_⟩
          have : (known ++ hd).count c ≤ (known ++ (hd :: tl).flatten).count c := by
            simp only [List.count_append, List.flatten_cons]
            have : hd.count c ≤ (hd ++ tl.flatten).count c := by
              simp [List.count_append]
            omega
          omega
      | ok p =>
          obtain ⟨hh, kk⟩ := p
          have e1 := addCards_ok h1
          cases e1
          simp only [collectHands, h1] at h
          cases h2 : collectHands (known ++ hd) tl with
          | error e2 =>
              rw [h2] at h
              cases h
              obtain ⟨c, hc, hcount⟩ := ih h2
              refine ⟨c, hc, ?_⟩
              simpa [List.count_append] using hcount
          | ok q => rw [h2] at h; cases h

/-- The precise success analysis of the validation phase. -/
theorem validateInputs_ok {handsIn : List (List Card)} {comm : List Card} {n : Nat}
    {out : List (List Card) × List Card × List Card}
    (h : validateInputs handsIn comm n = .ok out) :
    out = (handsForPlayers handsIn n, comm, knownCards handsIn comm n) ∧
      (knownCards handsIn comm n).Nodup ∧ comm.length ≤ 5 := by
  unfold validateInputs at h
  cases h1 : collectHands [] (handsForPlayers handsIn n) with
  | error e => rw [h1] at h; cases h
  | ok p =>
      have e1 := collectHands_ok h1
      subst e1
      simp only [h1] at h
      cases h2 : addCards ([] ++ (handsForPlayers handsIn n).flatten) comm with
      | error e => simp only [h2] at h; cases h
      | ok q =>
          have e2 := addCards_ok h2
          subst e2
          simp only [h2] at h
          by_cases hlen : comm.length > 5
          · simp [hlen] at h
          · simp only [if_neg hlen] at h
            cases h
            refine ⟨by simp [knownCards], ?_, by omega⟩
            have hnod := addCards_ok_nodup h2
              (collectHands_ok_nodup h1 (List.nodup_nil))
            simpa [knownCards] using hnod

/-- Validation succeeds exactly when the inspected known cards have no
duplicate and at most 5 community cards are given. -/
theorem validateInputs_ok_iff {handsIn : List (List Card)} {comm : List Card} {n : Nat} :
    (validateInputs handsIn comm n =
      .ok (handsForPlayers handsIn n, comm, knownCards handsIn comm n)) ↔
    ((knownCards handsIn comm n).Nodup ∧ comm.length ≤ 5) := by
  constructor
  · intro h
    exact (validateInputs_ok h).2
  · rintro ⟨hnd, hlen⟩
    have h1 : collectHands [] (handsForPlayers handsIn n) =
        .ok (handsForPlayers handsIn n, (handsForPlayers handsIn n).flatten) := by
      have := @collectHands_of_nodup [] (handsForPlayers handsIn n)
        (by
          have : (handsForPlayers handsIn n).flatten.Nodup :=
            (List.sublist_append_left _ comm).nodup (by simpa [knownCards] using hnd)
          simpa using this)
      simpa using this
    have h2 : addCards ((handsForPlayers handsIn n).flatten) comm =
        .ok (comm, knownCards handsIn comm n) := by
      have := @addCards_of_nodup ((handsForPlayers handsIn n).flatten)
        comm (by simpa [knownCards] using hnd)
      simpa [knownCards] using this
    simp [validateInputs, h1, h2, Nat.not_lt_of_le hlen, knownCards]

/-- A duplicate among the inspected known cards makes validation fail
with a duplicate-card error naming a card that really occurs twice. -/
theorem validateInputs_dup {handsIn : List (List Card)} {comm : List Card} {n : Nat}
    (h : ¬ (knownCards handsIn comm n).Nodup) :
    ∃ c, validateInputs handsIn comm n = .error (.duplicateCard c) ∧
      2 ≤ (knownCards handsIn comm n).count c := by
  unfold validateInputs
  cases h1 : collectHands [] (handsForPlayers handsIn n) with
  | error e =>
      obtain ⟨c, hc, hcount⟩ := collectHands_error h1
      cases hc
      refine ⟨c, rfl, ?_⟩
      have hle : ((handsForPlayers handsIn n).flatten).count c ≤
          (knownCards handsIn comm n).count c := by
        simp [knownCards, List.count_append]
      exact Nat.le_trans (by simpa using hcount) hle
  | ok p =>
      have e1 := collectHands_ok h1
      subst e1
      cases h2 : addCards ([] ++ (handsForPlayers handsIn n).flatten) comm with
      | error e =>
          obtain ⟨c, hc, hcount⟩ := addCards_error h2
          cases hc
          simp only [List.nil_append] at h2
          refine ⟨c, by simp [h1, h2], ?_⟩
          simpa [knownCards] using hcount
      | ok q =>
          have hnod : (knownCards handsIn comm n).Nodup := by
            have hn := addCards_ok_nodup h2
              (collectHands_ok_nodup h1 (List.nodup_nil))
            simpa [knownCards] using hn
          exact absurd hnod h

end ValidationLemmas

section DealingLemmas

theorem drawN_ok {n : Nat} {deck d rest : List Card}
    (h : drawN n deck = .ok (d, rest)) : deck = d ++ rest ∧ d.length = n := by
  induction n generalizing deck d rest with
  | zero =>
      simp only [drawN] at h
      cases h
      simp
  | succ n ih =>
      cases deck with
      | nil => simp [drawN] at h
      | cons c deck =>
          simp only [drawN] at h
          cases hrec : drawN n deck with
          | error e => rw [hrec] at h; cases h
          | ok p =>
              obtain ⟨d2, r2⟩ := p
              rw [hrec] at h
              cases h
              obtain ⟨hdeck, hlen⟩ := ih hrec
              subst hdeck
              simp [hlen]

theorem drawN_of_le {n : Nat} {deck : List Card} (h : n ≤ deck.length) :
    drawN n deck = .ok (deck.take n, deck.drop n) := by
  induction n generalizing deck with
  | zero => simp [drawN]
  | succ n ih =>
      cases deck with
      | nil => simp at h
      | cons c deck =>
          have : n ≤ deck.length := by simpa using h
          simp [drawN, ih this]

theorem drawN_error {n : Nat} {deck : List Card} {e : PokerError}
    (h : drawN n deck = .error e) : e = .deckExhausted := by
  induction n generalizing deck e with
  | zero => simp [drawN] at h
  | succ n ih =>
      cases deck with
      | nil => simpa [drawN] using h.symm
      | cons c deck =>
          simp only [drawN] at h
          cases hrec : drawN n deck with
          | error e2 =>
              rw [hrec] at h
              cases h
              exact ih hrec
          | ok p => rw [hrec] at h; cases h

/-- Dealing extends every hand in place with cards taken in order from
the front of the deck: there is a single drawn segment that is a
front segment of the deck, the dealt hands are a permutation of the
initial hands plus that segment, and each hand is its initial hand
followed by its own drawn cards, filled up to 2 cards. -/
theorem dealHands_ok {hs hands : List (List Card)} {deck rest : List Card}
    (h : dealHands hs deck = .ok (hands, rest)) :
    ∃ drawn, deck = drawn ++ rest ∧
      hands.flatten.Perm (hs.flatten ++ drawn) ∧
      hands.length = hs.length ∧
      (∀ i, ∃ e, hands.getD i [] = hs.getD i [] ++ e) ∧
      (∀ i, i < hs.length →
        (hands.getD i []).length = max (hs.getD i []).length 2) := by
  induction hs generalizing hands deck rest with
  | nil =>
      simp only [dealHands] at h
      cases h
      exact ⟨[], by simp, by simp, by simp, fun i => ⟨[], by simp⟩, by simp⟩
  | cons hd tl ih =>
      cases h1 : drawN (2 - hd.length) deck with
      | error e => simp [dealHands, h1] at h
      | ok p =>
          obtain ⟨d1, deck2⟩ := p
          simp only [dealHands, h1] at h
          cases h2 : dealHands tl deck2 with
          | error e => rw [h2] at h; cases h
          | ok q =>
              obtain ⟨hands2, deck3⟩ := q
              rw [h2] at h
              cases h
              obtain ⟨hdeck, hlen1⟩ := drawN_ok h1
              obtain ⟨drawn2, hdeck2, hperm, hlen2, hext, hfull⟩ := ih h2
              refine ⟨d1 ++ drawn2, ?_, ?_, by simp [hlen2], ?_, ?_⟩
              · simp [hdeck, hdeck2]
              · have p2 := (hperm.append_left d1).trans
                  (List.perm_append_comm_assoc d1 tl.flatten drawn2)
                have p4 := p2.append_left hd
                simpa [List.append_assoc] using p4
              · intro i
                cases i with
                | zero => exact ⟨d1, by simp⟩
                | succ j =>
                    obtain ⟨e, he⟩ := hext j
                    exact ⟨e, by simpa using he⟩
              · intro i hi
                cases i with
                | zero => simp; omega
                | succ j =>
                    have : j < tl.length := by simpa using hi
                    simpa using hfull j this

theorem dealHands_error {hs : List (List Card)} {deck : List Card} {e : PokerError}
    (h : dealHands hs deck = .error e) : e = .deckExhausted := by
  induction hs generalizing deck e with
  | nil => simp [dealHands] at h
  | cons hd tl ih =>
      cases h1 : drawN (2 - hd.length) deck with
      | error e2 =>
          simp only [dealHands, h1] at h
          cases h
          exact drawN_error h1
      | ok p =>
          obtain ⟨d1, deck2⟩ := p
          simp only [dealHands, h1] at h
          cases h2 : dealHands tl deck2 with
          | error e2 =>
              rw [h2] at h
              cases h
              exact ih h2
          | ok q => obtain ⟨qh, qd⟩ := q; rw [h2] at h; cases h

theorem trialDeck_not_known {perm known : List Card} {c : Card}
    (h : c ∈ trialDeck perm known) : c ∉ known := by
  have := List.of_mem_filter h
  simpa using this

theorem trialDeck_nodup {perm known : List Card} (h : perm.Nodup) :
    (trialDeck perm known).Nodup := h.filter _

theorem trialDeck_perm {perm perm2 known : List Card} (h : perm.Perm perm2) :
    (trialDeck perm known).Perm (trialDeck perm2 known) := h.filter _

/-- Everything the dealing phase of one trial guarantees. -/
theorem dealTrial_ok {hands0 : List (List Card)} {comm0 known : List Card}
    {perm : List Card} {hands : List (List Card)} {board rest : List Card}
    (h : dealTrial hands0 comm0 known perm = .ok (hands, board, rest)) :
    ∃ drawn, trialDeck perm known = drawn ++ rest ∧
      (hands.flatten ++ board).Perm ((hands0.flatten ++ comm0) ++ drawn) ∧
      hands.length = hands0.length ∧
      (∀ i, ∃ e, hands.getD i [] = hands0.getD i [] ++ e) ∧
      (∀ i, i < hands0.length →
        (hands.getD i []).length = max (hands0.getD i []).length 2) ∧
      (∃ d, board = comm0 ++ d ∧ board.length = max comm0.length 5) := by
  unfold dealTrial at h
  cases h1 : dealHands hands0 (trialDeck perm known) with
  | error e => rw [h1] at h; cases h
  | ok p =>
      obtain ⟨hands2, deck1⟩ := p
      simp only [h1] at h
      cases h2 : drawN (5 - comm0.length) deck1 with
      | error e => rw [h2] at h; cases h
      | ok q =>
          obtain ⟨d2, deck2⟩ := q
          rw [h2] at h
          cases h
          obtain ⟨drawn1, hdeck, hperm, hlen, hext, hfull⟩ := dealHands_ok h1
          obtain ⟨hdeck1, hlen2⟩ := drawN_ok h2
          refine ⟨drawn1 ++ d2, ?_, ?_, hlen, hext, hfull, ⟨d2, rfl, by simp [hlen2]; omega⟩⟩
          · simp [hdeck, hdeck1, List.append_assoc]
          · refine List.Perm.trans (hperm.append_right (comm0 ++ d2)) ?_
            have p3 := (List.perm_append_comm_assoc drawn1 comm0 d2).append_left
              hands0.flatten
            simpa [List.append_assoc] using p3

theorem dealTrial_error {hands0 : List (List Card)} {comm0 known perm : List Card}
    {e : PokerError} (h : dealTrial hands0 comm0 known perm = .error e) :
    e = .deckExhausted := by
  unfold dealTrial at h
  cases h1 : dealHands hands0 (trialDeck perm known) with
  | error e2 =>
      rw [h1] at h
      cases h
      exact dealHands_error h1
  | ok p =>
      obtain ⟨hands2, deck1⟩ := p
      simp only [h1] at h
      cases h2 : drawN (5 - comm0.length) deck1 with
      | error e2 =>
          rw [h2] at h
          cases h
          exact drawN_error h2
      | ok q => obtain ⟨d2, deck2⟩ := q; rw [h2] at h; cases h

end DealingLemmas

section WinnerLemmas

theorem listMin_eq_none {l : List Nat} : listMin l = none ↔ l = [] := by
  cases l with
  | nil => simp [listMin]
  | cons x xs =>
      simp only [listMin]
      cases listMin xs <;> simp

theorem listMin_mem {l : List Nat} {m : Nat} (h : listMin l = some m) : m ∈ l := by
  induction l generalizing m with
  | nil => simp [listMin] at h
  | cons x xs ih =>
      simp only [listMin] at h
      cases hx : listMin xs with
      | none =>
          rw [hx] at h
          cases h
          simp
      | some m2 =>
          rw [hx] at h
          cases h
          rcases Nat.le_total x m2 with hm | hm
          · simp [Nat.min_eq_left hm]
          · simp [Nat.min_eq_right hm, ih hx]

theorem listMin_le {l : List Nat} {m : Nat} (h : listMin l = some m) :
    ∀ x ∈ l, m ≤ x := by
  induction l generalizing m with
  | nil => simp
  | cons x xs ih =>
      simp only [listMin] at h
      cases hx : listMin xs with
      | none =>
          rw [hx] at h
          cases h
          have : xs = [] := listMin_eq_none.mp hx
          simp [this]
      | some m2 =>
          rw [hx] at h
          cases h
          intro y hy
          rcases List.mem_cons.mp hy with rfl | hmem
          · exact Nat.min_le_left _ _
          · exact Nat.le_trans (Nat.min_le_right x m2) (ih hx y hmem)

/-- The winner list consists exactly of the indices whose score is `m`. -/
theorem mem_trialWinners {scores : List Nat} {m i : Nat} :
    i ∈ trialWinners scores m ↔ scores.get? i = some m := by
  unfold trialWinners
  simp only [List.mem_map, List.mem_filter]
  constructor
  · rintro ⟨⟨j, x⟩, ⟨hmem, hx⟩, rfl⟩
    have := List.mem_enum_iff_get?.mp hmem
    simp only at this
    rw [this]
    simpa using hx
  · intro h
    refine ⟨(i, m), ⟨List.mem_enum_iff_get?.mpr (by simpa using h), by simp⟩, rfl⟩

theorem trialWinners_ne_nil {scores : List Nat} {m : Nat}
    (h : listMin scores = some m) : trialWinners scores m ≠ [] := by
  intro hnil
  have hm := listMin_mem h
  obtain ⟨i, hget⟩ := List.mem_iff_get.mp hm
  have hmem : (i : Nat) ∈ trialWinners scores m := by
    rw [mem_trialWinners]
    rw [List.get?_eq_get i.isLt]
    simpa using hget
  simp [hnil] at hmem

theorem applyOutcome_length {results : List (Nat × Nat)} {w : List Nat} :
    (applyOutcome results w).length = results.length := by
  unfold applyOutcome
  split <;> simp

/-- The pointwise effect of one counter update. -/
theorem applyOutcome_getD {results : List (Nat × Nat)} {w : List Nat} {j : Nat}
    (hj : j < results.length) :
    (applyOutcome results w).getD j (0, 0) =
      (if j ∈ w then
        (if w.length = 1 then
          ((results.getD j (0, 0)).1 + 1, (results.getD j (0, 0)).2)
         else
          ((results.getD j (0, 0)).1, (results.getD j (0, 0)).2 + 1))
       else results.getD j (0, 0)) := by
  have hj2 : j < (results.enum).length := by simpa using hj
  unfold applyOutcome
  by_cases h1 : w.length = 1
  · simp only [if_pos h1]
    rw [List.getD_eq_getElem _ _ (by simpa using hj), List.getElem_map,
      List.getD_eq_getElem _ _ hj]
    simp [List.enum]
  · simp only [if_neg h1]
    rw [List.getD_eq_getElem _ _ (by simpa using hj), List.getElem_map,
      List.getD_eq_getElem _ _ hj]
    simp [List.enum]

end WinnerLemmas

section CounterLemmas

/-- Total wins recorded across all players. -/
def winsSum (results : List (Nat × Nat)) : Nat := (results.map Prod.fst).sum

theorem winsSum_ties_branch (results : List (Nat × Nat)) (w : List Nat) :
    ∀ k, (((List.enumFrom k results).map
        (fun p => if p.1 ∈ w then (p.2.1, p.2.2 + 1) else p.2)).map Prod.fst).sum
      = winsSum results := by
  induction results with
  | nil => intro k; simp [winsSum]
  | cons r rs ih =>
      intro k
      have htail := ih (k + 1)
      by_cases hk : k ∈ w <;>
        simp [List.enumFrom_cons, hk, winsSum, Function.comp] at htail ⊢ <;>
        omega

theorem winsSum_wins_branch (results : List (Nat × Nat)) (a : Nat) :
    ∀ k, ((((List.enumFrom k results).map
        (fun p => if p.1 = a then (p.2.1 + 1, p.2.2) else p.2)).map Prod.fst).sum
        ≤ winsSum results + 1) ∧
      (a < k → (((List.enumFrom k results).map
        (fun p => if p.1 = a then (p.2.1 + 1, p.2.2) else p.2)).map Prod.fst).sum
        = winsSum results) := by
  induction results with
  | nil => intro k; simp [winsSum]
  | cons r rs ih =>
      intro k
      constructor
      · by_cases hk : k = a
        · have ht := (ih (k + 1)).2 (by omega)
          simp [List.enumFrom_cons, hk, winsSum, Function.comp] at ht ⊢
          omega
        · have ht := (ih (k + 1)).1
          simp [List.enumFrom_cons, hk, winsSum, Function.comp] at ht ⊢
          omega
      · intro ha
        have hk : ¬ (k = a) := by omega
        have ht := (ih (k + 1)).2 (by omega)
        simp [List.enumFrom_cons, hk, winsSum, Function.comp] at ht ⊢
        omega

/-- One counter update adds at most one win in total across players. -/
theorem applyOutcome_winsSum {results : List (Nat × Nat)} {w : List Nat} :
    winsSum (applyOutcome results w) ≤ winsSum results + 1 := by
  unfold applyOutcome
  by_cases h1 : w.length = 1
  · obtain ⟨a, rfl⟩ := List.length_eq_one.mp h1
    rw [if_pos h1]
    have := (winsSum_wins_branch results a 0).1
    simp only [List.mem_singleton]
    simpa [winsSum, List.enum] using this
  · rw [if_neg h1]
    have := winsSum_ties_branch results w 0
    have heq : winsSum (List.map
        (fun p => if p.1 ∈ w then (p.2.1, p.2.2 + 1) else p.2) results.enum)
        = winsSum results := by
      simpa [winsSum, List.enum] using this
    omega

/-- One counter update adds at most one to any player's wins+ties. -/
theorem applyOutcome_entry_le {results : List (Nat × Nat)} {w : List Nat} {j : Nat}
    (hj : j < results.length) :
    ((applyOutcome results w).getD j (0, 0)).1 + ((applyOutcome results w).getD j (0, 0)).2
      ≤ (results.getD j (0, 0)).1 + (results.getD j (0, 0)).2 + 1 := by
  rw [applyOutcome_getD hj]
  by_cases hw : j ∈ w
  · by_cases h1 : w.length = 1 <;> simp [hw, h1] <;> omega
  · simp [hw]

theorem simTrial_ok_shape {score : List Card → List Card → Nat}
    {hands0 : List (List Card)} {comm0 known perm : List Card}
    {results out : List (Nat × Nat)}
    (h : simTrial score hands0 comm0 known results perm = .ok out) :
    ∃ w, out = applyOutcome results w := by
  unfold simTrial at h
  cases h1 : dealTrial hands0 comm0 known perm with
  | error e => rw [h1] at h; cases h
  | ok p =>
      obtain ⟨hands, board, rest⟩ := p
      simp only [h1] at h
      cases h2 : listMin (hands.map (fun hd => score board hd)) with
      | none => rw [h2] at h; cases h
      | some m =>
          rw [h2] at h
          cases h
          exact ⟨_, rfl⟩

theorem simTrial_error {score : List Card → List Card → Nat}
    {hands0 : List (List Card)} {comm0 known perm : List Card}
    {results : List (Nat × Nat)} {e : PokerError}
    (h : simTrial score hands0 comm0 known results perm = .error e) :
    e = .deckExhausted ∨ e = .emptyScores := by
  unfold simTrial at h
  cases h1 : dealTrial hands0 comm0 known perm with
  | error e2 =>
      rw [h1] at h
      cases h
      exact Or.inl (dealTrial_error h1)
  | ok p =>
      obtain ⟨hands, board, rest⟩ := p
      simp only [h1] at h
      cases h2 : listMin (hands.map (fun hd => score board hd)) with
      | none =>
          rw [h2] at h
          cases h
          exact Or.inr rfl
      | some m => rw [h2] at h; cases h

theorem runTrials_ok_bounds {score : List Card → List Card → Nat}
    {hands0 : List (List Card)} {comm0 known : List Card}
    {ds : List (List Card)} {results out : List (Nat × Nat)}
    (h : runTrials score hands0 comm0 known ds results = .ok out) :
    out.length = results.length ∧
      winsSum out ≤ winsSum results + ds.length ∧
      ∀ j, j < results.length →
        (out.getD j (0, 0)).1 + (out.getD j (0, 0)).2
          ≤ (results.getD j (0, 0)).1 + (results.getD j (0, 0)).2 + ds.length := by
  induction ds generalizing results out with
  | nil =>
      simp only [runTrials] at h
      cases h
      exact ⟨rfl, by omega, fun j hj => by omega⟩
  | cons d ds ih =>
      simp only [runTrials] at h
      cases h1 : simTrial score hands0 comm0 known results d with
      | error e => rw [h1] at h; cases h
      | ok r2 =>
          rw [h1] at h
          obtain ⟨w, rfl⟩ := simTrial_ok_shape h1
          obtain ⟨hl, hs, he⟩ := ih h
          have hlen : (applyOutcome results w).length = results.length :=
            applyOutcome_length
          refine ⟨by omega, ?_, ?_⟩
          · have := @applyOutcome_winsSum results w
            simp only [List.length_cons]
            omega
          · intro j hj
            have h2 := @applyOutcome_entry_le results w j hj
            have h3 := he j (by omega)
            simp only [List.length_cons]
            omega

theorem runTrials_error {score : List Card → List Card → Nat}
    {hands0 : List (List Card)} {comm0 known : List Card}
    {ds : List (List Card)} {results : List (Nat × Nat)} {e : PokerError}
    (h : runTrials score hands0 comm0 known ds results = .error e) :
    e = .deckExhausted ∨ e = .emptyScores := by
  induction ds generalizing results e with
  | nil => simp [runTrials] at h
  | cons d ds ih =>
      simp only [runTrials] at h
      cases h1 : simTrial score hands0 comm0 known results d with
      | error e2 =>
          rw [h1] at h
          cases h
          exact simTrial_error h1
      | ok r2 =>
          rw [h1] at h
          exact ih h

end CounterLemmas

section SimulationStructure

theorem aggregate_ok {results : List (Nat × Nat)} {n : Nat} {res : List (ℚ × ℚ)}
    (h : aggregate results n = .ok res) :
    res = results.map (fun r => (((r.1 : ℚ) / n) * 100, ((r.2 : ℚ) / n) * 100)) ∧
      (n = 0 → results = []) := by
  unfold aggregate at h
  by_cases hc : n = 0 ∧ results ≠ []
  · simp [hc] at h
  · rw [if_neg hc] at h
    cases h
    refine ⟨rfl, fun hn => ?_⟩
    by_cases hres : results = []
    · exact hres
    · exact absurd ⟨hn, hres⟩ hc

/-- Successful runs decompose into validation, the trial loop on the
zeroed counters, and the percentage conversion. -/
theorem runSimulation_ok_struct {score : List Card → List Card → Nat}
    {decks : Nat → List Card} {handsIn : List (List Card)} {comm : List Card}
    {numPlayers numSims : Nat} {res : List (ℚ × ℚ)}
    (h : runSimulation score decks handsIn comm numPlayers numSims = .ok res) :
    ∃ counters : List (Nat × Nat),
      validateInputs handsIn comm numPlayers =
        .ok (handsForPlayers handsIn numPlayers, comm, knownCards handsIn comm numPlayers) ∧
      runTrials score (handsForPlayers handsIn numPlayers) comm
          (knownCards handsIn comm numPlayers)
          ((List.range numSims).map decks) (List.replicate numPlayers (0, 0)) =
        .ok counters ∧
      counters.length = numPlayers ∧
      res = counters.map (fun r => (((r.1 : ℚ) / numSims) * 100,
        ((r.2 : ℚ) / numSims) * 100)) ∧
      (∀ j, j < numPlayers → (counters.getD j (0, 0)).1 + (counters.getD j (0, 0)).2
        ≤ numSims) ∧
      winsSum counters ≤ numSims ∧
      (numSims = 0 → counters = []) := by
  unfold runSimulation at h
  cases hv : validateInputs handsIn comm numPlayers with
  | error e => rw [hv] at h; cases h
  | ok p =>
      have hps := validateInputs_ok hv
      obtain ⟨hp, hnd, hc5⟩ := hps
      subst hp
      simp only [hv] at h
      cases ht : runTrials score (handsForPlayers handsIn numPlayers) comm
          (knownCards handsIn comm numPlayers)
          ((List.range numSims).map decks) (List.replicate numPlayers (0, 0)) with
      | error e => rw [ht] at h; cases h
      | ok counters =>
          rw [ht] at h
          obtain ⟨hres, hz⟩ := aggregate_ok h
          obtain ⟨hlen, hsum, hentry⟩ := runTrials_ok_bounds ht
          have hreplen : (List.replicate numPlayers ((0 : Nat), (0 : Nat))).length
              = numPlayers := by simp
          have hdslen : ((List.range numSims).map decks).length = numSims := by simp
          refine ⟨counters, rfl, rfl, by omega, hres, ?_, ?_, fun hn => ?_⟩
          · intro j hj
            have hb := hentry j (by omega)
            have hrep : (List.replicate numPlayers ((0 : Nat), (0 : Nat))).getD j (0, 0)
                = (0, 0) := by
              rw [List.getD_eq_getElem _ _ (by simpa using hj)]
              simp
            rw [hrep] at hb
            simpa [hdslen] using hb
          · have : winsSum (List.replicate numPlayers ((0 : Nat), (0 : Nat))) = 0 := by
              simp [winsSum]
            omega
          · exact hz hn

theorem sum_map_div_mul {c : ℚ} (l : List (Nat × Nat)) :
    (l.map (fun r => ((r.1 : ℚ) / c) * 100)).sum = ((winsSum l : ℚ) / c) * 100 := by
  induction l with
  | nil => simp [winsSum]
  | cons r rs ih =>
      simp only [List.map_cons, List.sum_cons, ih, winsSum, List.map_cons,
        List.sum_cons]
      push_cast
      ring

end SimulationStructure

section EvaluatorLemmas

theorem encode_aux_lt (l : List Nat) :
    ∀ acc, l.foldl (fun acc r => acc * 15 + (14 - r)) acc < (acc + 1) * 15 ^ l.length := by
  induction l with
  | nil => intro acc; simp
  | cons x xs ih =>
      intro acc
      have h1 := ih (acc * 15 + (14 - x))
      have h2 : (acc * 15 + (14 - x) + 1) * 15 ^ xs.length
          ≤ (acc + 1) * 15 ^ (xs.length + 1) := by
        rw [pow_succ]
        have hd : acc * 15 + (14 - x) + 1 ≤ (acc + 1) * 15 := by
          have : 14 - x ≤ 14 := by omega
          omega
        calc (acc * 15 + (14 - x) + 1) * 15 ^ xs.length
            ≤ ((acc + 1) * 15) * 15 ^ xs.length := Nat.mul_le_mul_right _ hd
          _ = (acc + 1) * (15 ^ xs.length * 15) := by ring
      simpa [List.length_cons] using Nat.lt_of_lt_of_le h1 h2

theorem encodeRanks_lt (l : List Nat) : encodeRanks l < 15 ^ l.length := by
  have := encode_aux_lt l 0
  simpa [encodeRanks] using this

theorem insertKicker_length (rs : List Nat) (x : Nat) (l : List Nat) :
    (insertKicker rs x l).length = l.length + 1 := by
  induction l with
  | nil => simp [insertKicker]
  | cons y ys ih =>
      unfold insertKicker
      by_cases hb : kickerBefore rs x y = true
      · simp [hb]
      · simp only [Bool.not_eq_true] at hb
        simp [hb, ih]

theorem byCountRank_length (cs : List Card) : (byCountRank cs).length = cs.length := by
  unfold byCountRank
  have haux : ∀ (rs l : List Nat), (l.foldr (insertKicker rs) []).length = l.length := by
    intro rs l
    induction l with
    | nil => simp
    | cons y ys ih => simp [List.foldr_cons, insertKicker_length, ih]
  simp [haux, ranksOf]

theorem tb5_lt {cs : List Card} (h : cs.length = 5) : tb5 cs < 15 ^ 5 := by
  have hone : ∀ x : Nat, encodeRanks [x] < 15 ^ 5 := by
    intro x
    have := encodeRanks_lt [x]
    have hle : (15 : Nat) ^ 1 ≤ 15 ^ 5 := Nat.pow_le_pow_right (by norm_num) (by norm_num)
    exact Nat.lt_of_lt_of_le (by simpa using this) hle
  have hfive : encodeRanks (byCountRank cs) < 15 ^ 5 := by
    have := encodeRanks_lt (byCountRank cs)
    rwa [byCountRank_length, h] at this
  unfold tb5
  cases category5 cs <;> first | exact hone _ | exact hfive

theorem rankClass_evaluate5 {cs : List Card} (h : cs.length = 5) :
    rankClass (evaluate5 cs) = category5 cs := by
  have htb := tb5_lt h
  have hdiv : evaluate5 cs / 15 ^ 5 = catVal (category5 cs) := by
    unfold evaluate5
    rw [mul_comm (catVal (category5 cs)) (15 ^ 5),
      Nat.mul_add_div (by norm_num : 0 < 15 ^ 5), Nat.div_eq_of_lt htb]
    omega
  unfold rankClass
  rw [hdiv]
  cases h2 : category5 cs <;> simp [catVal]

/-- The success analysis of `get_hand_strength`: the score is the
minimum 5-card score over the subsets and the category is derived
from the score. -/
theorem getHandStrength_ok {hole comm : List Card} {s : Nat} {cat : HandCategory}
    (h : getHandStrength hole comm = .ok (s, cat)) :
    hole.length = 2 ∧ comm.length ≤ 5 ∧ (comm ++ hole).Nodup ∧
      listMin ((List.sublistsLen 5 (comm ++ hole)).map evaluate5) = some s ∧
      cat = rankClass s := by
  unfold getHandStrength at h
  by_cases h2 : hole.length ≠ 2
  · simp [h2] at h
  · simp only [ne_eq, not_not] at h2
    rw [if_neg (by simpa using h2)] at h
    by_cases h5 : comm.length > 5
    · simp [h5] at h
    · rw [if_neg h5] at h
      unfold evaluateScore at h
      by_cases hlen : ((comm ++ hole).length = 5 || (comm ++ hole).length = 6 ||
          (comm ++ hole).length = 7) = true
      · rw [if_pos hlen] at h
        by_cases hnd : (comm ++ hole).Nodup
        · rw [if_pos hnd] at h
          cases hm : listMin ((List.sublistsLen 5 (comm ++ hole)).map evaluate5) with
          | none => rw [hm] at h; cases h
          | some m =>
              rw [hm] at h
              cases h
              exact ⟨h2, by omega, hnd, rfl, rfl⟩
        · rw [if_neg hnd] at h; cases h
      · rw [if_neg hlen] at h; cases h

end EvaluatorLemmas

section MoreHelpers

theorem aggregate_error {results : List (Nat × Nat)} {n : Nat} {e : PokerError}
    (h : aggregate results n = .error e) : e = .divisionByZero := by
  unfold aggregate at h
  by_cases hc : n = 0 ∧ results ≠ []
  · rw [if_pos hc] at h; cases h; rfl
  · rw [if_neg hc] at h; cases h

theorem handsForPlayers_getD (handsIn : List (List Card)) (N i : Nat) :
    (handsForPlayers handsIn N).getD i [] =
      if i < N then handsIn.getD i [] else [] := by
  unfold handsForPlayers
  by_cases hi : i < N
  · rw [if_pos hi]
    rw [List.getD_eq_getElem _ _ (by simpa using hi), List.getElem_map]
    simp
  · rw [if_neg hi]
    have hnone : (List.range N)[i]? = none :=
      List.getElem?_eq_none (by simpa using Nat.le_of_not_lt hi)
    simp [List.getD_eq_getElem?_getD, hnone]

theorem handsForPlayers_take (handsIn : List (List Card)) (N : Nat) :
    handsForPlayers (handsIn.take N) N = handsForPlayers handsIn N := by
  unfold handsForPlayers
  refine List.map_congr_left ?_
  intro i hi
  have hiN : i < N := List.mem_range.mp hi
  simp only [List.getD_eq_getElem?_getD]
  rw [List.getElem?_take_of_lt hiN]

theorem handsForPlayers_length (handsIn : List (List Card)) (N : Nat) :
    (handsForPlayers handsIn N).length = N := by
  simp [handsForPlayers]

end MoreHelpers

section Claims

/-- Claim C2: in every trial, the winners are exactly the players whose
score equals the minimum score; a unique winner gets wins + 1 and no tie
counter moves, while two or more tied winners each get ties + 1 and no
win counter moves. -/
theorem claim_C2 (score : List Card → List Card → Nat)
    (scores : List Nat) (results : List (Nat × Nat)) (m : Nat)
    (hm : listMin scores = some m) :
    (m ∈ scores ∧ ∀ x ∈ scores, m ≤ x) ∧
    (∀ i, i ∈ trialWinners scores m ↔
      ∃ h : i < scores.length, scores.get ⟨i, h⟩ = m) ∧
    ((trialWinners scores m).length = 1 ∨ 2 ≤ (trialWinners scores m).length) ∧
    ((trialWinners scores m).length = 1 →
      ∀ j, j < results.length →
        (applyOutcome results (trialWinners scores m)).getD j (0, 0) =
          (if j ∈ trialWinners scores m
           then ((results.getD j (0, 0)).1 + 1, (results.getD j (0, 0)).2)
           else results.getD j (0, 0))) ∧
    (2 ≤ (trialWinners scores m).length →
      ∀ j, j < results.length →
        (applyOutcome results (trialWinners scores m)).getD j (0, 0) =
          (if j ∈ trialWinners scores m
           then ((results.getD j (0, 0)).1, (results.getD j (0, 0)).2 + 1)
           else results.getD j (0, 0))) ∧
    (∀ hands0 comm0 known perm hands board rest,
      dealTrial hands0 comm0 known perm = .ok (hands, board, rest) →
      hands.map (fun hd => score board hd) = scores →
      simTrial score hands0 comm0 known results perm =
        .ok (applyOutcome results (trialWinners scores m))) := by
  refine ⟨⟨listMin_mem hm, listMin_le hm⟩, ?_, ?_, ?_, ?_, ?_⟩
  · intro i
    rw [mem_trialWinners]
    exact List.get?_eq_some
  · have hne := trialWinners_ne_nil hm
    have : 0 < (trialWinners scores m).length := List.length_pos.mpr hne
    omega
  · intro h1 j hj
    rw [applyOutcome_getD hj]
    simp [h1]
  · intro h2 j hj
    rw [applyOutcome_getD hj]
    have h1 : ¬ (trialWinners scores m).length = 1 := by omega
    simp [h1]
  · intro hands0 comm0 known perm hands board rest hdeal hscores
    unfold simTrial
    simp only [hdeal, hscores, hm]

/-- Claim C3: on 6 or 7 distinct cards, the evaluation behind
`get_hand_strength` returns the numerically lowest score over all
5-card subsets, the reported category is that of a winning subset, and
for a 7-card hand exactly 21 subsets are enumerated. -/
theorem claim_C3 {hole comm : List Card} {s : Nat} {cat : HandCategory}
    (hlen : (comm ++ hole).length = 6 ∨ (comm ++ hole).length = 7)
    (h : getHandStrength hole comm = .ok (s, cat)) :
    (∀ sub ∈ List.sublistsLen 5 (comm ++ hole), s ≤ evaluate5 sub) ∧
    (∃ sub ∈ List.sublistsLen 5 (comm ++ hole),
      evaluate5 sub = s ∧ category5 sub = cat) ∧
    ((comm ++ hole).length = 7 →
      (List.sublistsLen 5 (comm ++ hole)).length = 21) := by
  obtain ⟨h2, h5, hnd, hmin, hcat⟩ := getHandStrength_ok h
  refine ⟨?_, ?_, ?_⟩
  · intro sub hsub
    exact listMin_le hmin _ (List.mem_map_of_mem _ hsub)
  · have hmem := listMin_mem hmin
    obtain ⟨sub, hsub, heq⟩ := List.mem_map.mp hmem
    refine ⟨sub, hsub, heq, ?_⟩
    have hlen5 : sub.length = 5 := List.length_of_sublistsLen hsub
    rw [hcat, ← heq, rankClass_evaluate5 hlen5]
  · intro h7
    rw [List.length_sublistsLen, h7]
    decide

/-- Claim C9: `get_hand_strength` rejects any total card count outside
{5,6,7} with a size error, and rejects duplicated cards (once the size
checks pass) with a duplicate-card-in-hand error; the 5-to-7-card
evaluator behind it is modelled from the spec. -/
theorem claim_C9 (hole comm : List Card) :
    (hole.length + comm.length ≠ 5 → hole.length + comm.length ≠ 6 →
      hole.length + comm.length ≠ 7 →
      ∃ e, getHandStrength hole comm = .error e ∧
        (e = .invalidHoleCount ∨ e = .invalidCommunityCount ∨
          e = .invalidHandSize)) ∧
    (hole.length = 2 → 3 ≤ comm.length → comm.length ≤ 5 →
      ¬ (comm ++ hole).Nodup →
      getHandStrength hole comm = .error .duplicateCardInHand) := by
  constructor
  · intro h5 h6 h7
    by_cases hh : hole.length = 2
    · by_cases hc : comm.length > 5
      · refine ⟨.invalidCommunityCount, ?_, by simp⟩
        unfold getHandStrength
        rw [if_neg (by omega), if_pos hc]
      · refine ⟨.invalidHandSize, ?_, by simp⟩
        unfold getHandStrength
        rw [if_neg (by omega), if_neg hc]
        unfold evaluateScore
        have hb : ((comm ++ hole).length = 5 || (comm ++ hole).length = 6 ||
            (comm ++ hole).length = 7) = false := by
          simp only [List.length_append, Bool.or_eq_false_iff, decide_eq_false_iff_not]
          omega
        rw [hb]
        simp
    · refine ⟨.invalidHoleCount, ?_, by simp⟩
      unfold getHandStrength
      rw [if_pos (by omega)]
  · intro hh h3 h5 hnd
    unfold getHandStrength
    rw [if_neg (by omega), if_neg (by omega)]
    unfold evaluateScore
    have hb : ((comm ++ hole).length = 5 || (comm ++ hole).length = 6 ||
        (comm ++ hole).length = 7) = true := by
      simp only [List.length_append, Bool.or_eq_true, decide_eq_true_eq]
      omega
    rw [hb]
    simp [hnd]

/-- Claim C4 (amended): a duplicate among the known cards the call
actually inspects — the first `num_total_players` player entries plus
the community cards — always fails with a duplicate-card error naming a
card that occurs twice, independently of the scoring function, the
decks and the trial count (so before any trial executes). -/
theorem claim_C4 (score : List Card → List Card → Nat) (decks : Nat → List Card)
    {handsIn : List (List Card)} {comm : List Card} {N : Nat} (n : Nat)
    (h : ¬ (knownCards handsIn comm N).Nodup) :
    ∃ c, runSimulation score decks handsIn comm N n = .error (.duplicateCard c) ∧
      2 ≤ (knownCards handsIn comm N).count c := by
  obtain ⟨c, hv, hc⟩ := validateInputs_dup h
  refine ⟨c, ?_, hc⟩
  unfold runSimulation
  rw [hv]

/-- Claim C4, counterexample to the original statement: the card 0
appears twice across the specified player hole-card entries, yet the
call succeeds, because the duplicate sits in an entry beyond
`num_total_players` and is silently ignored. -/
theorem claim_C4_counterexample :
    List.count 0 (([[0, 1], [], [0, 2]] : List (List Card)).flatten) = 2 ∧
    isOk (runSimulation (fun _ _ => 0) (fun _ => fullDeck)
      [[0, 1], [], [0, 2]] [] 2 1) = true := by
  exact ⟨by decide, rfl⟩

/-- Claim C6 (amended): with duplicate-free known cards, the call fails
with the community-size error exactly when more than 5 community cards
are given; counts 1 and 2 are accepted. -/
theorem claim_C6 (score : List Card → List Card → Nat) (decks : Nat → List Card)
    {handsIn : List (List Card)} {comm : List Card} {N : Nat} (n : Nat)
    (hnd : (knownCards handsIn comm N).Nodup) :
    runSimulation score decks handsIn comm N n = .error .tooManyCommunity ↔
      5 < comm.length := by
  constructor
  · intro h
    by_contra hgt
    push_neg at hgt
    have hv := validateInputs_ok_iff.mpr ⟨hnd, hgt⟩
    unfold runSimulation at h
    simp only [hv] at h
    cases ht : runTrials score (handsForPlayers handsIn N) comm
        (knownCards handsIn comm N) ((List.range n).map decks)
        (List.replicate N (0, 0)) with
    | error e =>
        rw [ht] at h
        cases h
        rcases runTrials_error ht with h1 | h1 <;> cases h1
    | ok counters =>
        rw [ht] at h
        have := aggregate_error h
        cases this
  · intro hgt
    have hcnd : (knownCards handsIn comm N).Nodup := hnd
    have hv : validateInputs handsIn comm N = .error .tooManyCommunity := by
      unfold validateInputs
      have h1 : collectHands [] (handsForPlayers handsIn N) =
          .ok (handsForPlayers handsIn N, [] ++ (handsForPlayers handsIn N).flatten) :=
        collectHands_of_nodup (by
          simpa using (List.sublist_append_left _ comm).nodup
            (by simpa [knownCards] using hcnd))
      have h2 : addCards ([] ++ (handsForPlayers handsIn N).flatten) comm =
          .ok (comm, [] ++ (handsForPlayers handsIn N).flatten ++ comm) :=
        addCards_of_nodup (by simpa [knownCards] using hcnd)
      simp only [h1, h2]
      simp [hgt]
    unfold runSimulation
    rw [hv]

/-- Claim C6, counterexample to the original statement: a single known
community card (count 1, outside {0,3,4,5}) is accepted and the call
completes. -/
theorem claim_C6_counterexample :
    ¬ (([3] : List Card).length = 0 ∨ ([3] : List Card).length = 3 ∨
       ([3] : List Card).length = 4 ∨ ([3] : List Card).length = 5) ∧
    isOk (runSimulation (fun _ _ => 0) (fun _ => fullDeck) [] [3] 2 1) = true := by
  exact ⟨by decide, rfl⟩

/-- Claim C7 (amended): a player entry with exactly one known hole card
is accepted: the known card stays in that player's dealt hand and
exactly one further card is drawn, for a final hand of 2 cards. -/
theorem claim_C7 {handsIn : List (List Card)} {comm : List Card} {N : Nat}
    {hands0 : List (List Card)} {comm0 known perm : List Card}
    {hands : List (List Card)} {board rest : List Card}
    (hv : validateInputs handsIn comm N = .ok (hands0, comm0, known))
    (hd : dealTrial hands0 comm0 known perm = .ok (hands, board, rest))
    (i : Nat) (hiN : i < N) (hi1 : (handsIn.getD i []).length = 1) :
    (hands.getD i []).length = 2 ∧
      ∃ c, hands.getD i [] = handsIn.getD i [] ++ [c] := by
  obtain ⟨hout, hnd, h5⟩ := validateInputs_ok hv
  rw [Prod.mk.injEq, Prod.mk.injEq] at hout
  obtain ⟨eh, _, _⟩ := hout
  subst eh
  obtain ⟨drawn, hdeck, hperm, hlen, hext, hfull, hboard⟩ := dealTrial_ok hd
  have hget : (handsForPlayers handsIn N).getD i [] = handsIn.getD i [] := by
    rw [handsForPlayers_getD, if_pos hiN]
  have hflen : (hands.getD i []).length = 2 := by
    have := hfull i (by rw [handsForPlayers_length]; exact hiN)
    rw [hget, hi1] at this
    simpa using this
  obtain ⟨e, he⟩ := hext i
  rw [hget] at he
  refine ⟨hflen, ?_⟩
  have helen : e.length = 1 := by
    have : (handsIn.getD i [] ++ e).length = 2 := by rw [← he]; exact hflen
    simp only [List.length_append, hi1] at this
    omega
  obtain ⟨c, rfl⟩ := List.length_eq_one.mp helen
  exact ⟨c, he⟩

/-- Claim C7, counterexample to the original statement: an input whose
first player entry has exactly one known hole card is not rejected —
the simulation completes. -/
theorem claim_C7_counterexample :
    (([[0]] : List (List Card)).getD 0 []).length = 1 ∧
    isOk (runSimulation (fun _ _ => 0) (fun _ => fullDeck) [[0]] [] 2 1) = true := by
  exact ⟨rfl, rfl⟩

/-- Claim C10: only the first `num_total_players` entries of the input
hand list are used (extra entries change nothing, so their cards are
neither checked for duplicates nor excluded from the deck); missing
entries behave as empty hands; a completed call returns exactly one
result entry per player. -/
theorem claim_C10 (score : List Card → List Card → Nat) (decks : Nat → List Card)
    (handsIn : List (List Card)) (comm : List Card) (N n : Nat) :
    (runSimulation score decks handsIn comm N n =
      runSimulation score decks (handsIn.take N) comm N n) ∧
    (∀ hands0 comm0 known,
      validateInputs handsIn comm N = .ok (hands0, comm0, known) →
      hands0.length = N ∧ ∀ i, handsIn.length ≤ i → hands0.getD i [] = []) ∧
    (∀ res, runSimulation score decks handsIn comm N n = .ok res →
      res.length = N) := by
  refine ⟨?_, ?_, ?_⟩
  · unfold runSimulation
    have hv : validateInputs handsIn comm N = validateInputs (handsIn.take N) comm N := by
      unfold validateInputs
      rw [handsForPlayers_take]
    rw [hv]
  · intro hands0 comm0 known hv
    obtain ⟨hout, hnd, h5⟩ := validateInputs_ok hv
    rw [Prod.mk.injEq, Prod.mk.injEq] at hout
    obtain ⟨eh, _, _⟩ := hout
    subst eh
    refine ⟨handsForPlayers_length handsIn N, ?_⟩
    intro i hi
    rw [handsForPlayers_getD]
    by_cases hiN : i < N
    · rw [if_pos hiN]
      simp [List.getD_eq_getElem?_getD, List.getElem?_eq_none hi]
    · rw [if_neg hiN]
  · intro res h
    obtain ⟨counters, _, _, hclen, hres, _, _, _⟩ := runSimulation_ok_struct h
    rw [hres]
    simpa using hclen

/-- Claim C1: once validation has succeeded, in any trial whose dealing
completes, the trial deck is exactly the 52 cards minus the known cards,
the drawn cards form a front segment of that deck (drawing without
replacement), every known hole/community card stays in its assigned
hand or on the board, the cards across all hands and the board are
pairwise distinct, and no card of the trial deck is a known card. -/
theorem claim_C1 {handsIn : List (List Card)} {comm : List Card} {N : Nat}
    {hands0 : List (List Card)} {comm0 known perm : List Card}
    {hands : List (List Card)} {board rest : List Card}
    (hv : validateInputs handsIn comm N = .ok (hands0, comm0, known))
    (hperm : perm.Perm fullDeck)
    (hd : dealTrial hands0 comm0 known perm = .ok (hands, board, rest)) :
    (trialDeck perm known).Perm (fullDeck.filter (fun c => decide (c ∉ known))) ∧
    (∀ c ∈ trialDeck perm known, c ∉ known) ∧
    (∃ drawn, trialDeck perm known = drawn ++ rest ∧
      (hands.flatten ++ board).Perm ((hands0.flatten ++ comm0) ++ drawn)) ∧
    (hands.flatten ++ board).Nodup ∧
    (∀ i, ∃ e, hands.getD i [] = hands0.getD i [] ++ e) ∧
    (∃ d, board = comm0 ++ d) := by
  obtain ⟨hout, hnd, h5⟩ := validateInputs_ok hv
  rw [Prod.mk.injEq, Prod.mk.injEq] at hout
  obtain ⟨eh, ec, ek⟩ := hout
  subst eh; subst ec; subst ek
  obtain ⟨drawn, hdeck, hperm2, hlen, hext, hfull, hboard⟩ := dealTrial_ok hd
  refine ⟨trialDeck_perm hperm, fun c hc => trialDeck_not_known hc,
    ⟨drawn, hdeck, hperm2⟩, ?_, hext, ?_⟩
  · have hdeckNodup : (trialDeck perm (knownCards handsIn comm0 N)).Nodup :=
      trialDeck_nodup ((hperm.nodup_iff).mpr (by simp [fullDeck, List.nodup_range]))
    rw [hdeck] at hdeckNodup
    have hdrawnNodup : drawn.Nodup :=
      (List.sublist_append_left drawn rest).nodup hdeckNodup
    have hdisj : ∀ c ∈ drawn, c ∉ knownCards handsIn comm0 N := by
      intro c hc
      refine @trialDeck_not_known perm _ _ ?_
      rw [hdeck]
      exact List.mem_append_left _ hc
    have hcombined : ((knownCards handsIn comm0 N) ++ drawn).Nodup :=
      hnd.append hdrawnNodup (fun a ha hb => (hdisj a hb) ha)
    exact (hperm2.nodup_iff).mpr (by simpa [knownCards] using hcombined)
  · obtain ⟨d, hd2, _⟩ := hboard
    exact ⟨d, hd2⟩

/-- Claim C5: a completed call returns one entry per player,
index-aligned with the final counters as `wins / trials * 100` and
`ties / trials * 100`; each player's two percentages sum to at most
100, and the win percentages summed over all players are at most 100. -/
theorem claim_C5 {score : List Card → List Card → Nat} {decks : Nat → List Card}
    {handsIn : List (List Card)} {comm : List Card} {N n : Nat}
    {res : List (ℚ × ℚ)}
    (h : runSimulation score decks handsIn comm N n = .ok res) :
    res.length = N ∧
    (∃ counters : List (Nat × Nat),
      runTrials score (handsForPlayers handsIn N) comm (knownCards handsIn comm N)
          ((List.range n).map decks) (List.replicate N (0, 0)) = .ok counters ∧
      res = counters.map (fun r => (((r.1 : ℚ) / n) * 100, ((r.2 : ℚ) / n) * 100))) ∧
    (∀ p ∈ res, p.1 + p.2 ≤ 100) ∧
    (res.map Prod.fst).sum ≤ 100 := by
  obtain ⟨counters, hv, ht, hclen, hres, hentry, hwins, hzero⟩ :=
    runSimulation_ok_struct h
  refine ⟨by rw [hres]; simpa using hclen, ⟨counters, ht, hres⟩, ?_, ?_⟩
  · intro p hp
    rw [hres] at hp
    obtain ⟨r, hr, rfl⟩ := List.mem_map.mp hp
    by_cases hn : n = 0
    · have hc0 := hzero hn
      subst hc0
      simp at hr
    · obtain ⟨j, hj, hrj⟩ := List.mem_iff_getElem.mp hr
      have hb := hentry j (by omega)
      rw [List.getD_eq_getElem _ _ hj, hrj] at hb
      have hnpos : (0 : ℚ) < (n : ℚ) := by
        exact_mod_cast Nat.pos_of_ne_zero hn
      have hcast : (r.1 : ℚ) + (r.2 : ℚ) ≤ (n : ℚ) := by exact_mod_cast hb
      have heq : ((r.1 : ℚ) / n) * 100 + ((r.2 : ℚ) / n) * 100
          = (((r.1 : ℚ) + r.2) / n) * 100 := by ring
      simp only [heq]
      have hle1 : ((r.1 : ℚ) + r.2) / n ≤ 1 := (div_le_one hnpos).mpr hcast
      linarith
  · rw [hres]
    have hmapmap : ((counters.map (fun r => (((r.1 : ℚ) / n) * 100,
        ((r.2 : ℚ) / n) * 100))).map Prod.fst)
        = counters.map (fun r => ((r.1 : ℚ) / n) * 100) := by
      rw [List.map_map]
      rfl
    rw [hmapmap, sum_map_div_mul]
    by_cases hn : n = 0
    · have hc0 := hzero hn
      subst hc0
      simp [winsSum]
    · have hnpos : (0 : ℚ) < (n : ℚ) := by
        exact_mod_cast Nat.pos_of_ne_zero hn
      have hc : (winsSum counters : ℚ) ≤ n := by exact_mod_cast hwins
      have hle1 : (winsSum counters : ℚ) / n ≤ 1 := (div_le_one hnpos).mpr hc
      linarith

theorem listMin_isSome_of_ne_nil {l : List Nat} (h : l ≠ []) :
    ∃ m, listMin l = some m := by
  cases hm : listMin l with
  | none => exact absurd (listMin_eq_none.mp hm) h
  | some m => exact ⟨m, rfl⟩

theorem trialDeck_nil_known (perm : List Card) : trialDeck perm [] = perm := by
  unfold trialDeck
  refine List.filter_eq_self.mpr ?_
  intro a _
  simp

theorem handsForPlayers_nil (N : Nat) :
    handsForPlayers [] N = List.replicate N [] := by
  unfold handsForPlayers
  have hgetD : ∀ i : Nat, ([] : List (List Card)).getD i [] = [] := fun i => rfl
  simp only [hgetD, List.map_const', List.length_range]

theorem knownCards_nil (N : Nat) : knownCards [] [] N = [] := by
  unfold knownCards
  rw [handsForPlayers_nil]
  simp

theorem dealHands_replicate_ok {N : Nat} {deck : List Card}
    (h : 2 * N ≤ deck.length) :
    ∃ hands rest, dealHands (List.replicate N []) deck = .ok (hands, rest) ∧
      hands.length = N ∧ rest.length = deck.length - 2 * N := by
  induction N generalizing deck with
  | zero => exact ⟨[], deck, by simp [dealHands], rfl, by omega⟩
  | succ N ih =>
      have hdraw : drawN (2 - List.length ([] : List Card)) deck
          = .ok (deck.take 2, deck.drop 2) := by
        simpa using @drawN_of_le 2 deck (by omega)
      obtain ⟨hands, rest, hok, hlen, hrlen⟩ := @ih (deck.drop 2)
        (by simp; omega)
      refine ⟨([] ++ deck.take 2) :: hands, rest, ?_, by simp [hlen], ?_⟩
      · rw [List.replicate_succ]
        simp only [dealHands, hdraw, hok]
      · simp only [List.length_drop] at hrlen
        omega

theorem dealTrial_replicate_ok {N : Nat} (hcap : 2 * N + 5 ≤ 52)
    {perm : List Card} (hperm : perm.Perm fullDeck) :
    ∃ hands board rest,
      dealTrial (List.replicate N []) [] [] perm = .ok (hands, board, rest) ∧
      hands.length = N := by
  have hplen : perm.length = 52 := by
    have := hperm.length_eq
    simpa [fullDeck] using this
  unfold dealTrial
  rw [trialDeck_nil_known]
  obtain ⟨hands, rest, hok, hlen, hrlen⟩ :=
    @dealHands_replicate_ok N perm (by omega)
  have hdraw2 : drawN (5 - List.length ([] : List Card)) rest
      = .ok (rest.take 5, rest.drop 5) := by
    simpa using @drawN_of_le 5 rest (by omega)
  simp only [hok, hdraw2]
  exact ⟨hands, [] ++ rest.take 5, rest.drop 5, rfl, hlen⟩

theorem simTrial_replicate_ok (score : List Card → List Card → Nat) {N : Nat}
    (hN : 1 ≤ N) (hcap : 2 * N + 5 ≤ 52) {perm : List Card}
    (hperm : perm.Perm fullDeck) (results : List (Nat × Nat)) :
    ∃ out, simTrial score (List.replicate N []) [] [] results perm = .ok out := by
  obtain ⟨hands, board, rest, hdeal, hlen⟩ := dealTrial_replicate_ok hcap hperm
  unfold simTrial
  simp only [hdeal]
  have hne : hands.map (fun hd => score board hd) ≠ [] := by
    intro hempty
    have := congrArg List.length hempty
    simp [hlen] at this
    omega
  obtain ⟨m, hm⟩ := listMin_isSome_of_ne_nil hne
  rw [hm]
  exact ⟨_, rfl⟩

theorem runTrials_replicate_ok (score : List Card → List Card → Nat) {N : Nat}
    (hN : 1 ≤ N) (hcap : 2 * N + 5 ≤ 52) :
    ∀ ds : List (List Card), (∀ p ∈ ds, p.Perm fullDeck) →
      ∀ results, ∃ out,
        runTrials score (List.replicate N []) [] [] ds results = .ok out := by
  intro ds
  induction ds with
  | nil => exact fun _ results => ⟨results, rfl⟩
  | cons d ds ih =>
      intro hds results
      obtain ⟨out1, h1⟩ :=
        simTrial_replicate_ok score hN hcap (hds d (by simp)) results
      obtain ⟨out2, h2⟩ := ih (fun p hp => hds p (by simp [hp])) out1
      refine ⟨out2, ?_⟩
      simp only [runTrials, h1]
      exact h2

/-- Claim C8 (amended): `run_simulation` validates neither the player
count nor the trial count; for any player count that physically fits
the deck (2·players + 5 ≤ 52, including counts outside 2..9) and any
positive trial count, a call with no known cards completes normally. -/
theorem claim_C8 (score : List Card → List Card → Nat) {decks : Nat → List Card}
    {N n : Nat} (hN : 1 ≤ N) (hcap : 2 * N + 5 ≤ 52) (hn : 1 ≤ n)
    (hdecks : ∀ t, (decks t).Perm fullDeck) :
    ∃ res, runSimulation score decks [] [] N n = .ok res := by
  unfold runSimulation
  have hv : validateInputs [] [] N =
      .ok (handsForPlayers [] N, [], knownCards [] [] N) :=
    validateInputs_ok_iff.mpr ⟨by rw [knownCards_nil]; exact List.nodup_nil, by simp⟩
  simp only [hv, handsForPlayers_nil, knownCards_nil]
  obtain ⟨counters, hok⟩ := runTrials_replicate_ok score hN hcap
    ((List.range n).map decks) (by
      intro p hp
      obtain ⟨t, _, rfl⟩ := List.mem_map.mp hp
      exact hdecks t)
    (List.replicate N (0, 0))
  simp only [hok]
  unfold aggregate
  rw [if_neg (by rintro ⟨h0, _⟩; omega)]
  exact ⟨_, rfl⟩

/-- Claim C8, counterexample to the original statement: a single player
(count 1, outside the required 2..9) is accepted and the call completes
rather than failing with a configuration error. -/
theorem claim_C8_counterexample :
    ¬ (2 ≤ 1) ∧
    isOk (runSimulation (fun _ _ => 0) (fun _ => fullDeck) [] [] 1 1) = true := by
  exact ⟨by decide, rfl⟩

theorem isOk_exists {α : Type} {x : Except PokerError α} (h : isOk x = true) :
    ∃ r, x = .ok r := by
  cases x with
  | ok r => exact ⟨r, rfl⟩
  | error e => simp [isOk] at h

theorem claim_C1_witness :
    (([[0, 1], [2, 3]] : List (List Card)).flatten ++ [4, 5, 6, 7, 8]).Nodup ∧
    (∀ c ∈ trialDeck fullDeck [0, 1], c ∉ ([0, 1] : List Card)) :=
  ⟨(@claim_C1 [[0, 1]] [] 2 [[0, 1], []] [] [0, 1] fullDeck [[0, 1], [2, 3]]
      [4, 5, 6, 7, 8] ((List.range 52).drop 9)
      (by rfl) (List.Perm.refl _) (by rfl)).2.2.2.1,
   (@claim_C1 [[0, 1]] [] 2 [[0, 1], []] [] [0, 1] fullDeck [[0, 1], [2, 3]]
      [4, 5, 6, 7, 8] ((List.range 52).drop 9)
      (by rfl) (List.Perm.refl _) (by rfl)).2.1⟩

theorem claim_C2_witness :
    listMin [3, 1, 2] = some 1 ∧
    (∀ i, i ∈ trialWinners [3, 1, 2] 1 ↔
      ∃ h : i < ([3, 1, 2] : List Nat).length, ([3, 1, 2] : List Nat).get ⟨i, h⟩ = 1) :=
  ⟨by decide,
   (claim_C2 (fun _ _ => 0) [3, 1, 2] [(0, 0), (0, 0), (0, 0)] 1 (by decide)).2.1⟩

theorem claim_C3_witness :
    ∃ sub ∈ List.sublistsLen 5 (([51, 47, 43, 39, 35] ++ [0, 1]) : List Card),
      evaluate5 sub = 0 ∧ category5 sub = HandCategory.straightFlush :=
  (claim_C3 (Or.inr (by rfl)) (by rfl)).2.1

theorem claim_C4_witness :
    ∃ c, runSimulation (fun _ _ => 0) (fun _ => fullDeck) [[0, 1], [0]] [] 2 5
        = .error (.duplicateCard c) ∧
      2 ≤ (knownCards [[0, 1], [0]] [] 2).count c :=
  claim_C4 (fun _ _ => 0) (fun _ => fullDeck) 5 (by decide)

theorem claim_C5_witness :
    ∃ res, runSimulation (fun _ _ => 0) (fun _ => fullDeck) [[0, 1]] [] 2 1 = .ok res ∧
      res.length = 2 ∧ (∀ p ∈ res, p.1 + p.2 ≤ 100) ∧
      (res.map Prod.fst).sum ≤ 100 := by
  obtain ⟨res, hres⟩ :=
    @isOk_exists _ (runSimulation (fun _ _ => 0) (fun _ => fullDeck) [[0, 1]] [] 2 1) rfl
  exact ⟨res, hres, (claim_C5 hres).1, (claim_C5 hres).2.2.1, (claim_C5 hres).2.2.2⟩

theorem claim_C6_witness :
    runSimulation (fun _ _ => 0) (fun _ => fullDeck) [] [0, 1, 2, 3, 4, 5] 2 1
      = .error .tooManyCommunity :=
  (claim_C6 (fun _ _ => 0) (fun _ => fullDeck) 1 (by decide)).mpr (by decide)

theorem claim_C7_witness :
    ((([[0, 1], [2, 3]] : List (List Card)).getD 0 []).length = 2) ∧
      ∃ c, ([[0, 1], [2, 3]] : List (List Card)).getD 0 []
        = ([[0]] : List (List Card)).getD 0 [] ++ [c] :=
  @claim_C7 [[0]] [] 2 [[0], []] [] [0] fullDeck [[0, 1], [2, 3]]
    [4, 5, 6, 7, 8] ((List.range 52).drop 9)
    (by rfl) (by rfl) 0 (by decide) (by decide)

theorem claim_C8_witness :
    ∃ res, runSimulation (fun _ _ => 0) (fun _ => fullDeck) [] [] 10 3 = .ok res :=
  claim_C8 (fun _ _ => 0) (by decide) (by decide) (by decide)
    (fun t => List.Perm.refl _)

theorem claim_C9_witness :
    (∃ e, getHandStrength [0] [] = .error e ∧
      (e = .invalidHoleCount ∨ e = .invalidCommunityCount ∨ e = .invalidHandSize)) ∧
    getHandStrength [0, 4] [8, 0, 12] = .error .duplicateCardInHand :=
  ⟨(claim_C9 [0] []).1 (by decide) (by decide) (by decide),
   (claim_C9 [0, 4] [8, 0, 12]).2 (by decide) (by decide) (by decide) (by decide)⟩

theorem claim_C10_witness :
    (runSimulation (fun _ _ => 0) (fun _ => fullDeck) [[0, 1], [], [0, 2]] [] 2 1 =
      runSimulation (fun _ _ => 0) (fun _ => fullDeck)
        (([[0, 1], [], [0, 2]] : List (List Card)).take 2) [] 2 1) ∧
    (([[0, 1], []] : List (List Card)).length = 2 ∧
      ∀ i, ([[0, 1]] : List (List Card)).length ≤ i →
        ([[0, 1], []] : List (List Card)).getD i [] = []) :=
  ⟨(claim_C10 (fun _ _ => 0) (fun _ => fullDeck) [[0, 1], [], [0, 2]] [] 2 1).1,
   (claim_C10 (fun _ _ => 0) (fun _ => fullDeck) [[0, 1]] [] 2 1).2.1
     [[0, 1], []] [] [0, 1] (by rfl)⟩

end Claims

end PokerSim

